import Mathlib

/-!
# Verification of the meshtastic_vox bit-packing codec and container format

This file gives a shallow embedding of the two core components of
`src/codec.py` — the `BitPacker` (pack_codes / unpack_codes, whose bit-level
behaviour follows numpy's `packbits` / `unpackbits` with `bitorder='big'`)
and the length-prefixed metadata container
(`AudioFile.save_with_metadata` / `AudioFile.load_with_metadata` and
`AudioStream.save_compressed_to_stream` / `AudioStream.load_compressed_from_stream`)
— and proves the spec's properties about them.

Modelling conventions:
* byte strings are `List Nat` (each entry a byte value);
* a 3-axis code array of shape `(B, T, N)` is a function
  `Nat → Nat → Nat → ℚ` together with the three extents (ndarray semantics:
  the shape is uniform by construction, only indices below the extents are
  read);
* float32 arithmetic is modelled over the exact reals `ℝ` (the claims at
  stake — sign patterns and the two-valued rescaling law — are exact, so
  `1e-6`-tolerance statements become equalities);
* a raised Python exception is modelled as `Option.none`.
-/

namespace MeshtasticVox

/-! ## BitPacker: packing (`BitPacker.pack_codes`, src/codec.py lines 60-94) -/

/-- `(codes > 0).astype(np.uint8)` applied to one element: the hard sign
threshold, `1` for strictly positive values, `0` for zero or negative ones. -/
def binarize (x : ℚ) : Nat := if 0 < x then 1 else 0

/-- Row `b` of the flattened bit array: `bits.reshape(bits.shape[0], -1)`
turns the `(B, T, N)` binarized array into shape `(B, T*N)`, row-major, so
flat position `j` of row `b` holds the binarized value of
`codes[b, j / N, j % N]`. -/
def codeBitsRow (codes : Nat → Nat → Nat → ℚ) (N T b : Nat) : List Nat :=
  (List.range (T * N)).map (fun j => binarize (codes b (j / N) (j % N)))

/-- One output byte of `np.packbits(_, bitorder='big')`: eight bits folded
most-significant-bit first. -/
def bitsToByte (l : List Nat) : Nat := l.foldl (fun acc bit => acc * 2 + bit) 0

/-- Split a bit list into groups of eight (the byte boundaries used by
`np.packbits`). -/
def chunks8 (l : List Nat) : List (List Nat) :=
  if h : l = [] then [] else l.take 8 :: chunks8 (l.drop 8)
termination_by l.length
decreasing_by
  have hpos : 0 < l.length := List.length_pos.mpr h
  simp only [List.length_drop]
  omega

/-- `np.packbits(row, bitorder='big')` on one row: the row is padded with
zero bits at the low-order end up to a whole number of bytes, then packed
eight bits per byte, most-significant-bit first. -/
def packbitsRow (l : List Nat) : List Nat :=
  (chunks8 (l ++ List.replicate ((8 - l.length % 8) % 8) 0)).map bitsToByte

/-- The 4-tuple returned by `BitPacker.pack_codes`. -/
structure PackResult where
  n_bits : Nat
  packed : List Nat
  num_valid : Nat
  batches : Nat
deriving DecidableEq, Repr

/-- `BitPacker.pack_codes` on a code array of shape `(B, T, N)`:
binarize, flatten each batch to a `T*N`-bit row, pack every row with
`np.packbits(..., bitorder='big')` (padding each row independently to
`ceil(T*N/8)` bytes), and concatenate the rows' bytes;
returns `(n_bits=N, packed, num_valid=T, batches=B)`. -/
def pack_codes (B T N : Nat) (codes : Nat → Nat → Nat → ℚ) : PackResult :=
  ⟨N,
   ((List.range B).map (fun b => packbitsRow (codeBitsRow codes N T b))).flatten,
   T,
   B⟩

/-! ## BitPacker: unpacking (`BitPacker.unpack_codes`, src/codec.py lines 95-131) -/

/-- `np.unpackbits(byte, bitorder='big')`: the eight bits of one byte,
most-significant-bit first. -/
def byteToBits (b : Nat) : List Nat :=
  [b / 128 % 2, b / 64 % 2, b / 32 % 2, b / 16 % 2, b / 8 % 2, b / 4 % 2,
   b / 2 % 2, b % 2]

/-- The bit-extraction, truncation and reshape steps of
`BitPacker.unpack_codes`: expand the whole buffer into one flat bit stream
(`np.unpackbits(np.frombuffer(data_bytes, dtype=np.uint8), bitorder='big')`),
truncate it to `batches * num_valid * n_bits` bits, and fail (numpy
`reshape` raises) when fewer bits than that are available.  The reshaped
`(batches, num_valid, n_bits)` array is kept as the flat row-major list. -/
def unpack_bits (data_bytes : List Nat) (n_bits num_valid batches : Nat) :
    Option (List Nat) :=
  let bits := (data_bytes.map byteToBits).flatten
  let expected_bits := batches * num_valid * n_bits
  let truncated := bits.take expected_bits
  if truncated.length = expected_bits then some truncated else none

/-- `BitPacker.unpack_codes`: the extracted bit array, cast to float and
rescaled in place by `bits *= 2; bits -= 1; bits *= 1/np.sqrt(n_bits)`. -/
noncomputable def unpack_codes (data_bytes : List Nat)
    (n_bits num_valid batches : Nat) : Option (List ℝ) :=
  (unpack_bits data_bytes n_bits num_valid batches).map
    (fun bits => bits.map
      (fun v : Nat => ((v : ℝ) * 2 - 1) * (1 / Real.sqrt n_bits)))

/-! ## Basic facts about the bit-level helpers -/

theorem chunks8_nil : chunks8 [] = [] := by
  rw [chunks8]
  simp

theorem chunks8_ne_nil {l : List Nat} (h : l ≠ []) :
    chunks8 l = l.take 8 :: chunks8 (l.drop 8) := by
  rw [chunks8]
  simp [h]

theorem bitsToByte_eight (a b c d e f g h : Nat) :
    bitsToByte [a, b, c, d, e, f, g, h] =
      a * 128 + b * 64 + c * 32 + d * 16 + e * 8 + f * 4 + g * 2 + h := by
  simp [bitsToByte, List.foldl]
  ring

/-- Round trip of a single byte: unpacking the byte packed from eight bits
returns those eight bits. -/
theorem byteToBits_bitsToByte (a b c d e f g h : Nat)
    (ha : a < 2) (hb : b < 2) (hc : c < 2) (hd : d < 2)
    (he : e < 2) (hf : f < 2) (hg : g < 2) (hh : h < 2) :
    byteToBits (bitsToByte [a, b, c, d, e, f, g, h]) = [a, b, c, d, e, f, g, h] := by
  rw [bitsToByte_eight]
  simp only [byteToBits, List.cons.injEq, and_true]
  refine ⟨?_, ?_, ?_, ?_, ?_, ?_, ?_, ?_⟩ <;> omega

/-- Every entry produced by `byteToBits` is a single bit. -/
theorem byteToBits_lt_two {b x : Nat} (hx : x ∈ byteToBits b) : x < 2 := by
  simp only [byteToBits, List.mem_cons, List.not_mem_nil, or_false] at hx
  rcases hx with h | h | h | h | h | h | h | h <;> subst h <;> omega

/-- `byteToBits` always yields exactly eight bits. -/
theorem byteToBits_length (b : Nat) : (byteToBits b).length = 8 := rfl

/-- Unpacking the bytes packed from a byte-aligned bit list recovers it. -/
theorem flatten_chunks8_roundtrip :
    ∀ (k : Nat) (l : List Nat), l.length ≤ k → l.length % 8 = 0 →
      (∀ x ∈ l, x < 2) →
      (((chunks8 l).map bitsToByte).map byteToBits).flatten = l := by
  intro k
  induction k with
  | zero =>
    intro l hl _ _
    have : l = [] := List.eq_nil_of_length_eq_zero (Nat.le_zero.mp hl)
    subst this
    simp [chunks8_nil]
  | succ k ih =>
    intro l hl hmod hbits
    rcases l with _ | ⟨a, _ | ⟨b, _ | ⟨c, _ | ⟨d, _ | ⟨e, _ | ⟨f, _ | ⟨g, _ | ⟨h, t⟩⟩⟩⟩⟩⟩⟩⟩
    · simp [chunks8_nil]
    · simp at hmod
    · simp at hmod
    · simp at hmod
    · simp at hmod
    · simp at hmod
    · simp at hmod
    · simp at hmod
    rw [chunks8_ne_nil (by simp)]
    have htake : (a :: b :: c :: d :: e :: f :: g :: h :: t).take 8 =
        [a, b, c, d, e, f, g, h] := rfl
    have hdrop : (a :: b :: c :: d :: e :: f :: g :: h :: t).drop 8 = t := rfl
    rw [htake, hdrop]
    simp only [List.map_cons, List.flatten_cons]
    rw [byteToBits_bitsToByte a b c d e f g h
      (hbits a (by simp)) (hbits b (by simp)) (hbits c (by simp))
      (hbits d (by simp)) (hbits e (by simp)) (hbits f (by simp))
      (hbits g (by simp)) (hbits h (by simp))]
    rw [ih t (by simp at hl; omega) (by simp at hmod ⊢; omega)
      (fun x hx => hbits x (by simp [hx]))]
    rfl

/-- `chunks8` produces `ceil(len/8)` chunks. -/
theorem chunks8_length :
    ∀ (k : Nat) (l : List Nat), l.length ≤ k →
      (chunks8 l).length = (l.length + 7) / 8 := by
  intro k
  induction k with
  | zero =>
    intro l hl
    have : l = [] := List.eq_nil_of_length_eq_zero (Nat.le_zero.mp hl)
    subst this
    simp [chunks8_nil]
  | succ k ih =>
    intro l hl
    rcases l with _ | ⟨a, t⟩
    · simp [chunks8_nil]
    rw [chunks8_ne_nil (by simp)]
    have hlen : ((a :: t).drop 8).length = (a :: t).length - 8 := by
      simp
    rw [List.length_cons, ih _ (by simp at hl ⊢; omega)]
    rw [hlen]
    simp only [List.length_cons]
    omega

/-- Length law for one packed row: `ceil(len/8)` bytes. -/
theorem packbitsRow_length (l : List Nat) :
    (packbitsRow l).length = (l.length + 7) / 8 := by
  unfold packbitsRow
  rw [List.length_map, chunks8_length (l.length + 8) _ (by simp; omega)]
  simp only [List.length_append, List.length_replicate]
  omega

/-- Unpacking all bytes of one packed row yields the row's bits followed by
its zero padding. -/
theorem flatten_byteToBits_packbitsRow (l : List Nat) (hbits : ∀ x ∈ l, x < 2) :
    ((packbitsRow l).map byteToBits).flatten =
      l ++ List.replicate ((8 - l.length % 8) % 8) 0 := by
  unfold packbitsRow
  apply flatten_chunks8_roundtrip
      (l.length + (8 - l.length % 8) % 8)
  · simp
  · simp only [List.length_append, List.length_replicate]
    omega
  · intro x hx
    rcases List.mem_append.mp hx with h | h
    · exact hbits x h
    · rw [List.eq_of_mem_replicate h]
      omega

/-- `getD` through a flatten of uniform-length sublists. -/
theorem flatten_getD_uniform {α : Type} (d : α) :
    ∀ (L : List (List α)) (m q r : Nat),
      (∀ l ∈ L, l.length = m) → q < L.length → r < m →
      (L.flatten).getD (q * m + r) d = (L.getD q []).getD r d := by
  intro L
  induction L with
  | nil => intro m q r _ hq _; simp at hq
  | cons x L ih =>
    intro m q r huni hq hr
    have hx : x.length = m := huni x (by simp)
    rcases q with _ | q
    · simp only [Nat.zero_mul, Nat.zero_add, List.flatten_cons, List.getD_cons_zero]
      exact List.getD_append x L.flatten d r (by omega)
    · have hidx : (q + 1) * m + r = x.length + (q * m + r) := by
        rw [hx]; ring
      simp only [List.flatten_cons, List.getD_cons_succ]
      rw [hidx, List.getD_append_right x L.flatten d _ (by omega),
        Nat.add_sub_cancel_left]
      exact ih m q r (fun l hl => huni l (by simp [hl])) (by simpa using hq) hr

/-- `getD` through a map over `List.range`. -/
theorem getD_map_range {α : Type} (f : Nat → α) (d : α) (n i : Nat) (h : i < n) :
    ((List.range n).map f).getD i d = f i := by
  rw [List.getD_eq_getElem _ _ (by simpa using h)]
  simp

/-- The flat bit stream recovered from a packed buffer: each batch row
contributes its `T*N` code bits followed by its own padding bits. -/
theorem bits_of_packed (B T N : Nat) (codes : Nat → Nat → Nat → ℚ) :
    ((pack_codes B T N codes).packed.map byteToBits).flatten =
      ((List.range B).map (fun b =>
        codeBitsRow codes N T b ++
          List.replicate ((8 - (T * N) % 8) % 8) 0)).flatten := by
  unfold pack_codes
  simp only
  rw [List.map_flatten, List.flatten_flatten, List.map_map, List.map_map]
  congr 1
  apply List.map_congr_left
  intro b _
  simp only [Function.comp]
  rw [flatten_byteToBits_packbitsRow _ (by
    intro x hx
    simp only [codeBitsRow, List.mem_map] at hx
    obtain ⟨j, _, hj⟩ := hx
    rw [← hj]
    unfold binarize
    split <;> omega)]
  congr 2
  simp [codeBitsRow]

/-- Length of every code-bit row. -/
theorem codeBitsRow_length (codes : Nat → Nat → Nat → ℚ) (N T b : Nat) :
    (codeBitsRow codes N T b).length = T * N := by
  simp [codeBitsRow]

/-- The flat unpacked bit stream of a buffer has eight bits per byte. -/
theorem flat_bits_length (data : List Nat) :
    ((data.map byteToBits).flatten).length = data.length * 8 := by
  rw [List.length_flatten, List.map_map]
  have hconst : data.map (List.length ∘ byteToBits) = data.map (fun _ => 8) := by
    apply List.map_congr_left
    intro a _
    simp [Function.comp, byteToBits_length]
  rw [hconst, List.map_const', List.sum_replicate]
  simp [smul_eq_mul, Nat.mul_comm]

/-- `getD` after `take`, inside the taken range. -/
theorem getD_take {α : Type} (l : List α) (n i : Nat) (d : α)
    (h1 : i < n) (h2 : i < l.length) :
    (l.take n).getD i d = l.getD i d := by
  rw [List.getD_eq_getElem _ _ (by simp only [List.length_take]; omega),
    List.getD_eq_getElem _ _ h2]
  exact List.getElem_take l

/-- `getD` through `map`, inside the list. -/
theorem getD_map_lt {α β : Type} (f : α → β) (l : List α) (d : β) (d0 : α)
    (i : Nat) (h : i < l.length) :
    (l.map f).getD i d = f (l.getD i d0) := by
  rw [List.getD_eq_getElem _ _ (by simpa using h), List.getD_eq_getElem _ _ h]
  simp

/-- `getD` values are members of the list. -/
theorem getD_mem {α : Type} (l : List α) (i : Nat) (d : α) (h : i < l.length) :
    l.getD i d ∈ l := by
  rw [List.getD_eq_getElem _ _ h]
  exact List.getElem_mem h

/-- Successful `unpack_bits` yields exactly the truncated flat bit stream. -/
theorem unpack_bits_eq_some {data_bytes : List Nat}
    {n_bits num_valid batches : Nat} {bits : List Nat}
    (h : unpack_bits data_bytes n_bits num_valid batches = some bits) :
    bits = ((data_bytes.map byteToBits).flatten).take
        (batches * num_valid * n_bits) ∧
      batches * num_valid * n_bits ≤ data_bytes.length * 8 := by
  simp only [unpack_bits] at h
  split at h
  · rename_i hc
    refine ⟨(Option.some.inj h).symm, ?_⟩
    rw [List.length_take, flat_bits_length] at hc
    omega
  · exact absurd h (by simp)

/-- C6: `BitPacker.unpack_codes(data, n_bits, num_valid, batches)` succeeds
exactly when `len(data) * 8 >= batches * num_valid * n_bits`; with fewer
available bits than the requested shape needs, the `reshape` raises (modelled
as `none`), and any excess bits are silently truncated away. -/
theorem unpack_codes_isSome_iff (data_bytes : List Nat)
    (n_bits num_valid batches : Nat) :
    (unpack_codes data_bytes n_bits num_valid batches).isSome ↔
      batches * num_valid * n_bits ≤ data_bytes.length * 8 := by
  rw [unpack_codes, Option.isSome_map']
  have hlen : ((((data_bytes.map byteToBits).flatten).take
      (batches * num_valid * n_bits)).length = batches * num_valid * n_bits) ↔
      batches * num_valid * n_bits ≤ data_bytes.length * 8 := by
    rw [List.length_take, flat_bits_length]
    omega
  simp only [unpack_bits]
  split
  · rename_i h
    simp only [Option.isSome_some, true_iff]
    exact hlen.mp h
  · rename_i h
    simp only [Option.isSome_none, Bool.false_eq_true, false_iff]
    intro hc
    exact h (hlen.mpr hc)

/-- C3: every element of a successfully unpacked array is
`(2v - 1)/sqrt(n_bits)` for `v` the corresponding bit of the flat unpacked
bit stream; in particular the output only takes the two values
`±1/sqrt(n_bits)`, never the original magnitudes. -/
theorem unpack_codes_two_valued (data_bytes : List Nat)
    (n_bits num_valid batches : Nat) (out : List ℝ)
    (hout : unpack_codes data_bytes n_bits num_valid batches = some out)
    (i : Nat) (hi : i < out.length) :
    out.getD i 0 =
      (2 * ((((data_bytes.map byteToBits).flatten).getD i 0 : Nat) : ℝ) - 1) /
        Real.sqrt n_bits ∧
    (out.getD i 0 = -(1 / Real.sqrt n_bits) ∨
      out.getD i 0 = 1 / Real.sqrt n_bits) := by
  rw [unpack_codes] at hout
  obtain ⟨bits, hbits, hmap⟩ := Option.map_eq_some'.mp hout
  obtain ⟨hbits_eq, _⟩ := unpack_bits_eq_some hbits
  subst hmap
  subst hbits_eq
  have hflatlen : ((data_bytes.map byteToBits).flatten).length =
      data_bytes.length * 8 := flat_bits_length data_bytes
  rw [List.length_map, List.length_take] at hi
  have hflat : i < ((data_bytes.map byteToBits).flatten).length := by omega
  have htr : i < batches * num_valid * n_bits := by omega
  rw [getD_map_lt _ _ _ 0 i (by rw [List.length_take]; omega),
    getD_take _ _ _ _ htr hflat]
  have hbit : ((data_bytes.map byteToBits).flatten).getD i 0 < 2 := by
    have hmem := getD_mem _ i 0 hflat
    obtain ⟨l, hl, hx⟩ := List.mem_flatten.mp hmem
    obtain ⟨b, _, rfl⟩ := List.mem_map.mp hl
    exact byteToBits_lt_two hx
  set v := ((data_bytes.map byteToBits).flatten).getD i 0 with hv
  have hv2 : v = 0 ∨ v = 1 := by omega
  constructor
  · rw [mul_one_div]
    ring_nf
  · rcases hv2 with h0 | h1
    · left
      rw [h0]
      norm_num
    · right
      rw [h1]
      norm_num

/-- C4: the packed buffer of a `(B, T, N)` code array has exactly
`B * ceil(T*N/8)` bytes (each batch row padded independently to a whole
number of bytes); in particular for `B=1, T=10, N=1` the packed length is
`2` bytes. -/
theorem pack_codes_packed_length :
    (∀ (B T N : Nat) (codes : Nat → Nat → Nat → ℚ), 0 < B → 0 < T → 0 < N →
      (pack_codes B T N codes).packed.length = B * ((T * N + 7) / 8)) ∧
    (∀ codes : Nat → Nat → Nat → ℚ,
      (pack_codes 1 10 1 codes).packed.length = 2) := by
  have law : ∀ (B T N : Nat) (codes : Nat → Nat → Nat → ℚ),
      (pack_codes B T N codes).packed.length = B * ((T * N + 7) / 8) := by
    intro B T N codes
    simp only [pack_codes]
    rw [List.length_flatten, List.map_map]
    have hconst : (List.range B).map
        (List.length ∘ fun b => packbitsRow (codeBitsRow codes N T b)) =
        (List.range B).map (fun _ => (T * N + 7) / 8) := by
      apply List.map_congr_left
      intro b _
      simp [Function.comp, packbitsRow_length, codeBitsRow_length]
    rw [hconst, List.map_const', List.sum_replicate]
    simp [smul_eq_mul, Nat.mul_comm]
  exact ⟨fun B T N codes _ _ _ => law B T N codes,
    fun codes => by rw [law 1 10 1 codes]⟩

/-- C9: packing depends only on the sign pattern of the code array — two
same-shaped arrays that agree elementwise on strict positivity pack to
identical `(n_bits, packed, num_valid, batches)` results. -/
theorem pack_codes_sign_determined (B T N : Nat)
    (c1 c2 : Nat → Nat → Nat → ℚ)
    (h : ∀ b t n, b < B → t < T → n < N → (0 < c1 b t n ↔ 0 < c2 b t n)) :
    pack_codes B T N c1 = pack_codes B T N c2 := by
  simp only [pack_codes, PackResult.mk.injEq, true_and, and_true]
  congr 1
  apply List.map_congr_left
  intro b hb
  congr 1
  simp only [codeBitsRow]
  apply List.map_congr_left
  intro j hj
  simp only [List.mem_range] at hb hj
  have hN : 0 < N := by
    rcases Nat.eq_zero_or_pos N with h0 | h0
    · subst h0
      simp at hj
    · exact h0
  have ht : j / N < T := by
    rw [Nat.div_lt_iff_lt_mul hN]
    omega
  have hn : j % N < N := Nat.mod_lt _ hN
  simp only [binarize]
  rw [if_congr (h b (j / N) (j % N) hb ht hn) rfl rfl]

/-- Witness for C9 at a concrete pair of sign-equal arrays. -/
theorem pack_codes_sign_determined_witness :
    pack_codes 1 1 1 (fun _ _ _ => (5 : ℚ)) =
      pack_codes 1 1 1 (fun _ _ _ => (1 : ℚ)) :=
  pack_codes_sign_determined 1 1 1 _ _ (by
    intro b t n _ _ _
    norm_num)

/-- Witness for C4 at the shape `(2, 3, 4)`. -/
theorem pack_codes_packed_length_witness :
    (pack_codes 2 3 4 (fun _ _ _ => (1 : ℚ))).packed.length = 2 * ((3 * 4 + 7) / 8) :=
  pack_codes_packed_length.1 2 3 4 (fun _ _ _ => (1 : ℚ))
    (by norm_num) (by norm_num) (by norm_num)

/-- Witness for C3 at the packed byte `0xB2` with `n_bits=1, num_valid=8`. -/
theorem unpack_codes_two_valued_witness :
    (([1, 0, 1, 1, 0, 0, 1, 0].map
        (fun v : Nat => ((v : ℝ) * 2 - 1) * (1 / Real.sqrt ((1 : Nat) : ℝ)))).getD 0 0 =
      (2 * (((([178].map byteToBits).flatten).getD 0 0 : Nat) : ℝ) - 1) /
        Real.sqrt ((1 : Nat) : ℝ)) ∧
    ((([1, 0, 1, 1, 0, 0, 1, 0].map
        (fun v : Nat => ((v : ℝ) * 2 - 1) * (1 / Real.sqrt ((1 : Nat) : ℝ)))).getD 0 0 =
        -(1 / Real.sqrt ((1 : Nat) : ℝ))) ∨
      (([1, 0, 1, 1, 0, 0, 1, 0].map
        (fun v : Nat => ((v : ℝ) * 2 - 1) * (1 / Real.sqrt ((1 : Nat) : ℝ)))).getD 0 0 =
        1 / Real.sqrt ((1 : Nat) : ℝ))) := by
  have hout : unpack_codes [178] 1 8 1 =
      some ([1, 0, 1, 1, 0, 0, 1, 0].map
        (fun v : Nat => ((v : ℝ) * 2 - 1) * (1 / Real.sqrt ((1 : Nat) : ℝ)))) := by
    rw [unpack_codes]
    rw [show unpack_bits [178] 1 8 1 = some [1, 0, 1, 1, 0, 0, 1, 0] from by decide]
    rfl
  exact unpack_codes_two_valued [178] 1 8 1 _ hout 0 (by simp)

/-- The flat code-bit stream of a whole `(B, T, N)` array has `B*(T*N)` bits. -/
theorem flatten_codeBits_length (B T N : Nat) (codes : Nat → Nat → Nat → ℚ) :
    (((List.range B).map (codeBitsRow codes N T)).flatten).length = B * (T * N) := by
  rw [List.length_flatten, List.map_map]
  have hconst : (List.range B).map (List.length ∘ codeBitsRow codes N T) =
      (List.range B).map (fun _ => T * N) := by
    apply List.map_congr_left
    intro b _
    simp [Function.comp, codeBitsRow_length]
  rw [hconst, List.map_const', List.sum_replicate]
  simp [smul_eq_mul, Nat.mul_comm]

/-- Elementwise content of the flat code-bit stream at position
`b*(T*N) + (t*N + n)`. -/
theorem flatten_codeBits_getD (B T N : Nat) (codes : Nat → Nat → Nat → ℚ)
    (b t n : Nat) (hb : b < B) (ht : t < T) (hn : n < N) :
    (((List.range B).map (codeBitsRow codes N T)).flatten).getD
        (b * (T * N) + (t * N + n)) 0 = binarize (codes b t n) := by
  have hN : 0 < N := by omega
  have hr : t * N + n < T * N := by
    calc t * N + n < t * N + N := by omega
    _ = (t + 1) * N := by ring
    _ ≤ T * N := Nat.mul_le_mul_right N ht
  rw [flatten_getD_uniform 0 _ (T * N) b (t * N + n)
    (by
      intro l hl
      obtain ⟨x, _, rfl⟩ := List.mem_map.mp hl
      exact codeBitsRow_length codes N T x)
    (by simpa using hb) hr]
  rw [show ((List.range B).map (codeBitsRow codes N T)).getD b [] =
      codeBitsRow codes N T b from getD_map_range _ _ B b hb]
  rw [show (codeBitsRow codes N T b).getD (t * N + n) 0 =
      binarize (codes b ((t * N + n) / N) ((t * N + n) % N)) from
    getD_map_range _ _ (T * N) (t * N + n) hr]
  have hdiv : (t * N + n) / N = t := by
    rw [show t * N + n = N * t + n by ring, Nat.mul_add_div hN,
      Nat.div_eq_of_lt hn]
    omega
  have hmod : (t * N + n) % N = n := by
    rw [show t * N + n = N * t + n by ring, Nat.mul_add_mod,
      Nat.mod_eq_of_lt hn]
  rw [hdiv, hmod]

/-- The numeric rescaling applied to one binarized code value. -/
theorem rescale_binarize (x : ℚ) (N : Nat) :
    ((binarize x : ℝ) * 2 - 1) * (1 / Real.sqrt N) =
      (if 0 < x then (1 : ℝ) else -1) / Real.sqrt N := by
  by_cases hx : 0 < x
  · simp only [binarize, if_pos hx]
    norm_num [mul_one_div]
  · simp only [binarize, if_neg hx]
    rw [neg_div]
    norm_num [mul_one_div]

/-- C1: on byte-aligned shapes (`T*N % 8 == 0`), unpacking the packed codes
with matching metadata recovers the exact sign pattern — each element of the
decoded `(B, T, N)` array is `+1/sqrt(N)` where the original element was
strictly positive and `-1/sqrt(N)` where it was zero or negative (exactly,
hence within the spec's `1e-6` tolerance). -/
theorem pack_unpack_roundtrip_aligned (B T N : Nat)
    (codes : Nat → Nat → Nat → ℚ)
    (hB : 0 < B) (hT : 0 < T) (hN : 0 < N) (halign : T * N % 8 = 0) :
    ∃ out : List ℝ,
      unpack_codes (pack_codes B T N codes).packed N T B = some out ∧
      ∀ b t n, b < B → t < T → n < N →
        out.getD ((b * T + t) * N + n) 0 =
          (if 0 < codes b t n then (1 : ℝ) else -1) / Real.sqrt N := by
  have hrows : ((pack_codes B T N codes).packed.map byteToBits).flatten =
      ((List.range B).map (codeBitsRow codes N T)).flatten := by
    rw [bits_of_packed]
    congr 1
    apply List.map_congr_left
    intro b _
    rw [halign]
    simp
  have hlen := flatten_codeBits_length B T N codes
  have hunp : unpack_bits (pack_codes B T N codes).packed N T B =
      some (((List.range B).map (codeBitsRow codes N T)).flatten) := by
    simp only [unpack_bits, hrows]
    rw [List.take_of_length_le (by rw [hlen]; ring_nf; omega)]
    rw [if_pos (by rw [hlen]; ring)]
  refine ⟨(((List.range B).map (codeBitsRow codes N T)).flatten).map
    (fun v : Nat => ((v : ℝ) * 2 - 1) * (1 / Real.sqrt N)), ?_, ?_⟩
  · rw [unpack_codes, hunp]
    rfl
  · intro b t n hb ht hn
    have hidx : (b * T + t) * N + n = b * (T * N) + (t * N + n) := by ring
    have hr : t * N + n < T * N := by
      calc t * N + n < t * N + N := by omega
      _ = (t + 1) * N := by ring
      _ ≤ T * N := Nat.mul_le_mul_right N ht
    have hi : b * (T * N) + (t * N + n) < B * (T * N) := by
      calc b * (T * N) + (t * N + n) < b * (T * N) + T * N := by omega
      _ = (b + 1) * (T * N) := by ring
      _ ≤ B * (T * N) := Nat.mul_le_mul_right (T * N) hb
    rw [hidx, getD_map_lt _ _ _ 0 _ (by rw [hlen]; exact hi),
      flatten_codeBits_getD B T N codes b t n hb ht hn,
      rescale_binarize]

/-- C5: for a single batch (`batches == 1`), packing then unpacking with the
matching metadata reproduces the sign pattern for every `T ≥ 1`, `N ≥ 1` —
including shapes where `T*N` is not a multiple of 8: the row padding bits
are dropped by truncating the flat bit stream to `1 * T * N` bits. -/
theorem unpack_pack_single_batch (T N : Nat) (codes : Nat → Nat → Nat → ℚ)
    (hT : 0 < T) (hN : 0 < N) :
    ∃ out : List ℝ,
      unpack_codes (pack_codes 1 T N codes).packed N T 1 = some out ∧
      ∀ t n, t < T → n < N →
        out.getD (t * N + n) 0 =
          (if 0 < codes 0 t n then (1 : ℝ) else -1) / Real.sqrt N := by
  have hrow := codeBitsRow_length codes N T 0
  have hbits : ((pack_codes 1 T N codes).packed.map byteToBits).flatten =
      codeBitsRow codes N T 0 ++
        List.replicate ((8 - T * N % 8) % 8) 0 := by
    rw [bits_of_packed]
    simp [List.range_succ]
  have hunp : unpack_bits (pack_codes 1 T N codes).packed N T 1 =
      some (codeBitsRow codes N T 0) := by
    simp only [unpack_bits, hbits]
    have h1 : 1 * T * N = T * N := by ring
    rw [h1, ← hrow, List.take_left]
    rw [if_pos rfl]
  refine ⟨(codeBitsRow codes N T 0).map
    (fun v : Nat => ((v : ℝ) * 2 - 1) * (1 / Real.sqrt N)), ?_, ?_⟩
  · rw [unpack_codes, hunp]
    rfl
  · intro t n ht hn
    have hr : t * N + n < T * N := by
      calc t * N + n < t * N + N := by omega
      _ = (t + 1) * N := by ring
      _ ≤ T * N := Nat.mul_le_mul_right N ht
    rw [getD_map_lt _ _ _ 0 _ (by rw [hrow]; exact hr),
      show (codeBitsRow codes N T 0).getD (t * N + n) 0 =
        binarize (codes 0 ((t * N + n) / N) ((t * N + n) % N)) from
        getD_map_range _ _ (T * N) (t * N + n) hr]
    have hdiv : (t * N + n) / N = t := by
      rw [show t * N + n = N * t + n by ring, Nat.mul_add_div hN,
        Nat.div_eq_of_lt hn]
      omega
    have hmod : (t * N + n) % N = n := by
      rw [show t * N + n = N * t + n by ring, Nat.mul_add_mod,
        Nat.mod_eq_of_lt hn]
    rw [hdiv, hmod, rescale_binarize]

/-- Witness for C1 at the aligned shape `(2, 4, 2)`. -/
theorem pack_unpack_roundtrip_aligned_witness :
    ∃ out : List ℝ,
      unpack_codes (pack_codes 2 4 2
          (fun b t n => if (b + t + n) % 2 = 0 then (1 : ℚ) else -1)).packed
          2 4 2 = some out ∧
      ∀ b t n, b < 2 → t < 4 → n < 2 →
        out.getD ((b * 4 + t) * 2 + n) 0 =
          (if 0 < (if (b + t + n) % 2 = 0 then (1 : ℚ) else -1)
            then (1 : ℝ) else -1) / Real.sqrt 2 :=
  pack_unpack_roundtrip_aligned 2 4 2 _
    (by norm_num) (by norm_num) (by norm_num) (by norm_num)

/-- Witness for C5 at the non-byte-aligned single-batch shape `(1, 3, 3)`. -/
theorem unpack_pack_single_batch_witness :
    ∃ out : List ℝ,
      unpack_codes (pack_codes 1 3 3
          (fun _ t n => if t = n then (1 : ℚ) else -1)).packed 3 3 1 =
        some out ∧
      ∀ t n, t < 3 → n < 3 →
        out.getD (t * 3 + n) 0 =
          (if 0 < (if t = n then (1 : ℚ) else -1) then (1 : ℝ) else -1) /
            Real.sqrt 3 :=
  unpack_pack_single_batch 3 3 _ (by norm_num) (by norm_num)

/-! ## Container format (src/codec.py lines 354-472)

The container is `[metadata_size : 4-byte little-endian][metadata : UTF-8
JSON][payload]`.  The metadata JSON layer models Python's `json.dumps` /
`json.loads` for the flat objects this format carries: a number value is
kept as its decimal token (the exact information `json` round-trips for
Python ints and floats, whose `repr` reparses exactly), a string value as
its character content. -/

/-- A JSON scalar value of the metadata object. -/
inductive JVal where
  | jnum (tok : String)
  | jstr (s : String)
deriving DecidableEq, Repr

/-- A parsed metadata JSON document: a flat object, fields in textual order. -/
inductive Json where
  | obj (fields : List (String × JVal))
deriving DecidableEq, Repr

/-- `json.dumps` string escaping for the quote and backslash characters. -/
def escapeChars : List Char → List Char
  | [] => []
  | c :: cs =>
    if c = '"' ∨ c = '\\' then '\\' :: c :: escapeChars cs
    else c :: escapeChars cs

/-- `json.dumps` of one scalar value. -/
def encValue : JVal → List Char
  | JVal.jnum tok => tok.data
  | JVal.jstr s => '"' :: (escapeChars s.data ++ ['"'])

/-- `json.dumps` of one `"key": value` pair (default separator `': '`). -/
def encField (f : String × JVal) : List Char :=
  '"' :: (escapeChars f.1.data ++ '"' :: ':' :: ' ' :: encValue f.2)

/-- `json.dumps` of the field list, joined by the default `', '` separator. -/
def encFields : List (String × JVal) → List Char
  | [] => []
  | [f] => encField f
  | f :: fs => encField f ++ ',' :: ' ' :: encFields fs

/-- `json.dumps` of a flat object. -/
def dumps : Json → List Char
  | Json.obj [] => ['{', '}']
  | Json.obj fs => '{' :: (encFields fs ++ ['}'])

/-- JSON whitespace, as skipped by `json.loads`. -/
def isWS (c : Char) : Bool :=
  (c == ' ') || (c == '\t') || (c == '\n') || (c == '\r')

def skipSpaces (s : List Char) : List Char := s.dropWhile isWS

/-- Characters that may continue a JSON number token. -/
def isNumChar (c : Char) : Bool :=
  c.isDigit || (c == '-') || (c == '+') || (c == '.') || (c == 'e') || (c == 'E')

/-- Characters that may start a JSON number token. -/
def numStartB : List Char → Bool
  | [] => false
  | c :: _ => c.isDigit || c == '-'

/-- Parse the remainder of a JSON string after the opening quote, undoing
the `\"` and `\\` escapes; fails on an unterminated string or an escape the
model does not carry. -/
def parseStringRest : List Char → Option (List Char × List Char)
  | [] => none
  | c :: rest =>
    if c = '"' then some ([], rest)
    else if c = '\\' then
      match rest with
      | [] => none
      | e :: rest2 =>
        if e = '"' ∨ e = '\\' then
          (parseStringRest rest2).map (fun p => (e :: p.1, p.2))
        else none
    else (parseStringRest rest).map (fun p => (c :: p.1, p.2))

/-- Parse a JSON number as its maximal token of number characters. -/
def parseNumber (s : List Char) : Option (List Char × List Char) :=
  if s.takeWhile isNumChar = [] then none
  else some (s.takeWhile isNumChar, s.dropWhile isNumChar)

/-- Parse one scalar JSON value. -/
def parseValue (s : List Char) : Option (JVal × List Char) :=
  match s with
  | [] => none
  | c :: rest =>
    if c = '"' then
      (parseStringRest rest).map (fun p => (JVal.jstr p.1.asString, p.2))
    else if c.isDigit || c == '-' then
      (parseNumber (c :: rest)).map (fun p => (JVal.jnum p.1.asString, p.2))
    else none

/-- Parse a nonempty `"key": value` field list up to and including the
closing `}`; the fuel bounds the number of fields. -/
def parseFieldsAux : Nat → List Char → Option (List (String × JVal) × List Char)
  | 0, _ => none
  | fuel + 1, s =>
    match skipSpaces s with
    | [] => none
    | c :: r0 =>
      if c = '"' then
        match parseStringRest r0 with
        | none => none
        | some (key, r1) =>
          match skipSpaces r1 with
          | [] => none
          | d :: r2 =>
            if d = ':' then
              match parseValue (skipSpaces r2) with
              | none => none
              | some (v, r3) =>
                match skipSpaces r3 with
                | [] => none
                | e :: r4 =>
                  if e = ',' then
                    match parseFieldsAux fuel r4 with
                    | none => none
                    | some (fs, r5) => some ((key.asString, v) :: fs, r5)
                  else if e = '}' then some ([(key.asString, v)], r4)
                  else none
            else none
      else none

/-- `json.loads` on a whole document holding one flat object; trailing
content other than whitespace is rejected. -/
def parseJson (s : List Char) : Option Json :=
  match skipSpaces s with
  | [] => none
  | c :: rest =>
    if c = '{' then
      match skipSpaces rest with
      | [] => none
      | d :: r2 =>
        if d = '}' then
          if skipSpaces r2 = [] then some (Json.obj []) else none
        else
          match parseFieldsAux (rest.length + 1) rest with
          | none => none
          | some (fs, r) => if skipSpaces r = [] then some (Json.obj fs) else none
    else none

/-- UTF-8 decoding of a metadata segment at the ASCII code points the
format carries: each byte becomes the character with that code point. -/
def bytesToChars (bytes : List Nat) : List Char := bytes.map Char.ofNat

def charsToBytes (s : List Char) : List Nat := s.map Char.toNat

/-- `json.loads(metadata_json.decode('utf-8'))`. -/
def parseJsonBytes (bytes : List Nat) : Option Json := parseJson (bytesToChars bytes)

/-- The metadata record built by `AudioCodec.encode_audio` (src/codec.py
lines 199-207): five integer fields, the config name, and the audio
duration — a Python float modelled by its decimal `repr` token, the exact
information `json` writes and reparses for it. -/
structure Metadata where
  n_bits : Int
  num_valid : Int
  batches : Int
  original_sample_rate : Int
  codec_sample_rate : Int
  config_name : String
  audio_duration : String
deriving DecidableEq, Repr

def digitChar (d : Nat) : Char := Char.ofNat (48 + d)

/-- Decimal digits of `n`, most significant first; the fuel (always called
with `fuel >= n`) makes the recursion structural. -/
def natDecAux : Nat → Nat → List Char
  | 0, _ => []
  | fuel + 1, n =>
    if n = 0 then [] else natDecAux fuel (n / 10) ++ [digitChar (n % 10)]

/-- Python `repr` of a natural number. -/
def natDecChars (n : Nat) : List Char :=
  if n = 0 then ['0'] else natDecAux n n

/-- Python `repr` of an int. -/
def intDecChars (i : Int) : List Char :=
  if i < 0 then '-' :: natDecChars i.natAbs else natDecChars i.natAbs

def intTok (i : Int) : String := (intDecChars i).asString

/-- The JSON object `json.dumps` serializes for a metadata record, keys in
the insertion order of `encode_audio`. -/
def metaToJson (m : Metadata) : Json :=
  Json.obj
    [("n_bits", JVal.jnum (intTok m.n_bits)),
     ("num_valid", JVal.jnum (intTok m.num_valid)),
     ("batches", JVal.jnum (intTok m.batches)),
     ("original_sample_rate", JVal.jnum (intTok m.original_sample_rate)),
     ("codec_sample_rate", JVal.jnum (intTok m.codec_sample_rate)),
     ("config_name", JVal.jstr m.config_name),
     ("audio_duration", JVal.jnum m.audio_duration)]

/-- `json.dumps(metadata)` as characters. -/
def dumpsMeta (m : Metadata) : List Char := dumps (metaToJson m)

/-- `metadata_size.to_bytes(4, 'little')`; only valid below `2^32`. -/
def toBytesLE4 (n : Nat) : List Nat :=
  [n % 256, n / 256 % 256, n / 65536 % 256, n / 16777216 % 256]

/-- `int.from_bytes(bytes, 'little')`, defined for any byte count. -/
def fromBytesLE : List Nat → Nat
  | [] => 0
  | b :: bs => b + 256 * fromBytesLE bs

/-- `AudioFile.save_with_metadata`: the byte content written to the file —
`[metadata_size:4][metadata][compressed_data]`; `none` models
`int.to_bytes(4, 'little')` raising `OverflowError`. -/
def save_with_metadata (compressed_data : List Nat) (metadata : Metadata) :
    Option (List Nat) :=
  let metadata_json := charsToBytes (dumpsMeta metadata)
  let metadata_size := metadata_json.length
  if metadata_size < 4294967296 then
    some (toBytesLE4 metadata_size ++ metadata_json ++ compressed_data)
  else none

/-- `AudioStream.save_compressed_to_stream`: the bytes written to the
stream; the Python body performs the identical three writes as
`AudioFile.save_with_metadata`. -/
def save_compressed_to_stream (compressed_data : List Nat) (metadata : Metadata) :
    Option (List Nat) :=
  let metadata_json := charsToBytes (dumpsMeta metadata)
  let metadata_size := metadata_json.length
  if metadata_size < 4294967296 then
    some (toBytesLE4 metadata_size ++ metadata_json ++ compressed_data)
  else none

/-- `AudioFile.load_with_metadata`: `f.read(4)` (which may return fewer
bytes near end-of-file — `int.from_bytes` accepts any length), then
`f.read(metadata_size)` (again possibly short), `json.loads`, and the rest
of the file as the payload.  There is no explicit length validation; the
only failure is a metadata segment that does not parse as JSON. -/
def load_with_metadata (file : List Nat) : Option (List Nat × Json) :=
  let metadata_size := fromBytesLE (file.take 4)
  let rest := file.drop 4
  let metadata_json := rest.take metadata_size
  match parseJsonBytes metadata_json with
  | none => none
  | some metadata => some (rest.drop metadata_size, metadata)

/-- `AudioStream.load_compressed_from_stream`: like the file loader but
with the two explicit checks (`len(metadata_size_bytes) != 4` and
`len(metadata_json) != metadata_size`) raising `ValueError`. -/
def load_compressed_from_stream (stream : List Nat) : Option (List Nat × Json) :=
  let metadata_size_bytes := stream.take 4
  if metadata_size_bytes.length ≠ 4 then none
  else
    let metadata_size := fromBytesLE metadata_size_bytes
    let metadata_json := (stream.drop 4).take metadata_size
    if metadata_json.length ≠ metadata_size then none
    else
      match parseJsonBytes metadata_json with
      | none => none
      | some metadata => some ((stream.drop 4).drop metadata_size, metadata)

/-- Well-formedness of a number token: nonempty, made of number characters,
starting like a number (this is what `repr` of a Python int or float
produces). -/
def numTokenOK (s : String) : Bool :=
  (!s.data.isEmpty) && s.data.all isNumChar && numStartB s.data

/-- Values whose encoding the parser inverts: any string; a number whose
token is well formed. -/
def parseValB : JVal → Bool
  | JVal.jnum tok => numTokenOK tok
  | JVal.jstr _ => true

/-- Printable ASCII, the character range `json.dumps` passes through
unescaped (everything else becomes a `\uXXXX` escape the model does not
carry). -/
def printableAscii (c : Char) : Bool :=
  decide (32 ≤ c.toNat) && decide (c.toNat < 127)

/-- A metadata record the byte-level model is faithful for: ASCII-printable
config name, well-formed duration token. -/
def validMetaB (m : Metadata) : Bool :=
  m.config_name.data.all printableAscii && numTokenOK m.audio_duration

/-! ## Parsing round-trip lemmas for the metadata JSON layer -/

theorem asString_data (s : String) : s.data.asString = s := rfl

theorem skipSpaces_cons_not_ws (c : Char) (s : List Char) (h : isWS c = false) :
    skipSpaces (c :: s) = c :: s := by
  simp [skipSpaces, List.dropWhile_cons, h]

theorem skipSpaces_space (s : List Char) :
    skipSpaces (' ' :: s) = skipSpaces s := by
  simp [skipSpaces, List.dropWhile_cons, isWS]

theorem escapeChars_cons (c : Char) (cs : List Char) :
    escapeChars (c :: cs) =
      if c = '"' ∨ c = '\\' then '\\' :: c :: escapeChars cs
      else c :: escapeChars cs := by
  rw [escapeChars.eq_def]

theorem parseStringRest_cons (c : Char) (rest : List Char) :
    parseStringRest (c :: rest) =
      if c = '"' then some ([], rest)
      else if c = '\\' then
        match rest with
        | [] => none
        | e :: rest2 =>
          if e = '"' ∨ e = '\\' then
            (parseStringRest rest2).map (fun p => (e :: p.1, p.2))
          else none
      else (parseStringRest rest).map (fun p => (c :: p.1, p.2)) := by
  rw [parseStringRest.eq_def]

/-- Undoing the `json.dumps` escapes recovers the original string
characters, leaving the input after the closing quote untouched. -/
theorem parseStringRest_escape (s r : List Char) :
    parseStringRest (escapeChars s ++ '"' :: r) = some (s, r) := by
  induction s with
  | nil =>
    show parseStringRest ('"' :: r) = some ([], r)
    rw [parseStringRest_cons, if_pos rfl]
  | cons c cs ih =>
    by_cases hc : c = '"' ∨ c = '\\'
    · rw [escapeChars_cons, if_pos hc,
        show ('\\' :: c :: escapeChars cs) ++ '"' :: r =
          '\\' :: c :: (escapeChars cs ++ '"' :: r) from rfl,
        parseStringRest_cons, if_neg (by decide : ¬('\\' : Char) = '"'),
        if_pos rfl]
      show (if c = '"' ∨ c = '\\' then
        (parseStringRest (escapeChars cs ++ '"' :: r)).map
          (fun p => (c :: p.1, p.2)) else none) = _
      rw [if_pos hc, ih]
      rfl
    · push_neg at hc
      rw [escapeChars_cons, if_neg (by tauto),
        show (c :: escapeChars cs) ++ '"' :: r =
          c :: (escapeChars cs ++ '"' :: r) from rfl,
        parseStringRest_cons, if_neg hc.1, if_neg hc.2, ih]
      rfl

theorem takeWhile_all_append {p : Char → Bool} (tok : List Char) (c : Char)
    (r : List Char) (hall : ∀ x ∈ tok, p x = true) (hc : p c = false) :
    (tok ++ c :: r).takeWhile p = tok ∧ (tok ++ c :: r).dropWhile p = c :: r := by
  induction tok with
  | nil => simp [List.takeWhile_cons, List.dropWhile_cons, hc]
  | cons a tk ih =>
    have ha := hall a (by simp)
    have ih' := ih (fun x hx => hall x (by simp [hx]))
    simp [List.takeWhile_cons, List.dropWhile_cons, ha, ih'.1, ih'.2]

theorem parseNumber_token (tok : List Char) (c : Char) (r : List Char)
    (hne : tok ≠ []) (hall : ∀ x ∈ tok, isNumChar x = true)
    (hc : isNumChar c = false) :
    parseNumber (tok ++ c :: r) = some (tok, c :: r) := by
  obtain ⟨h1, h2⟩ := takeWhile_all_append tok c r hall hc
  simp [parseNumber, h1, h2, hne]

/-- A character that can start a number token is not whitespace. -/
theorem numStart_not_ws (c : Char) (h : (c.isDigit || c == '-') = true) :
    isWS c = false := by
  by_cases h1 : c = ' '
  · subst h1
    exact absurd h (by decide)
  by_cases h2 : c = '\t'
  · subst h2
    exact absurd h (by decide)
  by_cases h3 : c = '\n'
  · subst h3
    exact absurd h (by decide)
  by_cases h4 : c = '\r'
  · subst h4
    exact absurd h (by decide)
  simp [isWS, h1, h2, h3, h4]

/-- A character that can start a number token is not the quote. -/
theorem numStart_ne_quote (c : Char) (h : (c.isDigit || c == '-') = true) :
    c ≠ '"' := by
  intro hq
  subst hq
  simp at h

/-- The encoding of a parse-invertible value starts with a non-whitespace
character, so leading-space skipping leaves it alone. -/
theorem skipSpaces_encValue (v : JVal) (hv : parseValB v = true)
    (x : List Char) : skipSpaces (encValue v ++ x) = encValue v ++ x := by
  cases v with
  | jstr s =>
    rw [show encValue (JVal.jstr s) ++ x =
      '"' :: ((escapeChars s.data ++ ['"']) ++ x) from rfl]
    exact skipSpaces_cons_not_ws _ _ (by decide)
  | jnum tok =>
    simp only [parseValB, numTokenOK, Bool.and_eq_true] at hv
    rcases htok : tok.data with _ | ⟨d, ds⟩
    · rw [htok] at hv
      simp at hv
    · have hd : (d.isDigit || d == '-') = true := by
        have := hv.2
        rw [htok] at this
        simpa [numStartB] using this
      rw [show encValue (JVal.jnum tok) ++ x = tok.data ++ x from rfl, htok]
      exact skipSpaces_cons_not_ws _ _ (numStart_not_ws d hd)

theorem parseValue_cons (c : Char) (rest : List Char) :
    parseValue (c :: rest) =
      if c = '"' then
        (parseStringRest rest).map (fun p => (JVal.jstr p.1.asString, p.2))
      else if c.isDigit || c == '-' then
        (parseNumber (c :: rest)).map (fun p => (JVal.jnum p.1.asString, p.2))
      else none := by
  rw [parseValue.eq_def]

/-- Parsing an encoded scalar value returns the value and the rest, when
the following character cannot extend a number token. -/
theorem parseValue_encValue (v : JVal) (c : Char) (r : List Char)
    (hv : parseValB v = true) (hc : isNumChar c = false) :
    parseValue (encValue v ++ c :: r) = some (v, c :: r) := by
  cases v with
  | jstr s =>
    have henc : encValue (JVal.jstr s) ++ c :: r =
        '"' :: (escapeChars s.data ++ '"' :: c :: r) := by
      show ('"' :: (escapeChars s.data ++ ['"'])) ++ c :: r = _
      simp [List.append_assoc]
    rw [henc, parseValue_cons, if_pos rfl, parseStringRest_escape]
    rfl
  | jnum tok =>
    simp only [parseValB, numTokenOK, Bool.and_eq_true] at hv
    rcases htok : tok.data with _ | ⟨d, ds⟩
    · rw [htok] at hv
      simp at hv
    · have hd : (d.isDigit || d == '-') = true := by
        have := hv.2
        rw [htok] at this
        simpa [numStartB] using this
      have hall : ∀ x ∈ tok.data, isNumChar x = true := by
        intro x hx
        have := hv.1.2
        rw [List.all_eq_true] at this
        exact this x hx
      rw [show encValue (JVal.jnum tok) ++ c :: r = tok.data ++ c :: r from rfl,
        htok, show (d :: ds) ++ c :: r = d :: (ds ++ c :: r) from rfl,
        parseValue_cons, if_neg (numStart_ne_quote d hd), if_pos hd,
        show d :: (ds ++ c :: r) = (d :: ds) ++ c :: r from rfl,
        parseNumber_token (d :: ds) c r (by simp)
          (by rw [← htok]; exact hall) hc]
      simp only [Option.map_some']
      rw [show (d :: ds).asString = tok from by
        rw [← htok]
        exact asString_data tok]


theorem parseFieldsAux_field (fuel : Nat) (f : String × JVal) (e : Char) (r : List Char)
    (hv : parseValB f.2 = true) (he : isNumChar e = false) (hew : isWS e = false) :
    parseFieldsAux (fuel + 1) (encField f ++ e :: r) =
      if e = ',' then
        match parseFieldsAux fuel r with
        | none => none
        | some (fs, r5) => some (f :: fs, r5)
      else if e = '}' then some ([f], r)
      else none := by
  have henc : encField f ++ e :: r =
      '"' :: (escapeChars f.1.data ++ '"' :: ':' :: ' ' ::
        (encValue f.2 ++ e :: r)) := by
    show ('"' :: (escapeChars f.1.data ++ '"' :: ':' :: ' ' :: encValue f.2)) ++
      e :: r = _
    simp [List.append_assoc]
  rw [henc, parseFieldsAux.eq_def]
  simp only [skipSpaces_cons_not_ws _ _ (by decide : isWS '"' = false)]
  rw [if_pos trivial, parseStringRest_escape]
  simp only [skipSpaces_cons_not_ws _ _ (by decide : isWS ':' = false)]
  rw [if_pos trivial, skipSpaces_space, skipSpaces_encValue f.2 hv,
    parseValue_encValue f.2 e r hv he]
  simp only [skipSpaces_cons_not_ws _ _ hew, asString_data]

theorem parseFieldsAux_succ (fuel : Nat) (s : List Char) :
    parseFieldsAux (fuel + 1) s =
      match skipSpaces s with
      | [] => none
      | c :: r0 =>
        if c = '"' then
          match parseStringRest r0 with
          | none => none
          | some (key, r1) =>
            match skipSpaces r1 with
            | [] => none
            | d :: r2 =>
              if d = ':' then
                match parseValue (skipSpaces r2) with
                | none => none
                | some (v, r3) =>
                  match skipSpaces r3 with
                  | [] => none
                  | e :: r4 =>
                    if e = ',' then
                      match parseFieldsAux fuel r4 with
                      | none => none
                      | some (fs, r5) => some ((key.asString, v) :: fs, r5)
                    else if e = '}' then some ([(key.asString, v)], r4)
                    else none
              else none
        else none := by
  rw [parseFieldsAux.eq_def]

theorem parseFieldsAux_skip (fuel : Nat) (s : List Char) :
    parseFieldsAux fuel (' ' :: s) = parseFieldsAux fuel s := by
  cases fuel with
  | zero => rfl
  | succ fuel =>
    rw [parseFieldsAux_succ, parseFieldsAux_succ, skipSpaces_space]

theorem encFields_single (f : String × JVal) : encFields [f] = encField f := rfl

theorem encFields_cons_cons (f g : String × JVal) (gs : List (String × JVal)) :
    encFields (f :: g :: gs) = encField f ++ ',' :: ' ' :: encFields (g :: gs) := rfl

/-- Parsing the encoded nonempty field list up to the closing brace. -/
theorem parseFieldsAux_encFields :
    ∀ (fs : List (String × JVal)) (fuel : Nat) (r : List Char),
      fs ≠ [] → fs.length ≤ fuel →
      (∀ f ∈ fs, parseValB f.2 = true) →
      parseFieldsAux fuel (encFields fs ++ '}' :: r) = some (fs, r) := by
  intro fs
  induction fs with
  | nil =>
    intro fuel r h _ _
    exact absurd rfl h
  | cons f fs ih =>
    intro fuel r _ hfuel hval
    obtain ⟨fuel, rfl⟩ : ∃ k, fuel = k + 1 :=
      ⟨fuel - 1, by simp at hfuel; omega⟩
    cases fs with
    | nil =>
      rw [encFields_single,
        parseFieldsAux_field fuel f '}' r (hval f (by simp)) (by decide)
          (by decide)]
      rw [if_neg (by decide : ¬('}' : Char) = ','), if_pos rfl]
    | cons g gs =>
      rw [encFields_cons_cons,
        show (encField f ++ ',' :: ' ' :: encFields (g :: gs)) ++ '}' :: r =
          encField f ++ ',' :: (' ' :: (encFields (g :: gs) ++ '}' :: r)) from by
          simp [List.append_assoc]]
      rw [parseFieldsAux_field fuel f ',' _ (hval f (by simp)) (by decide)
        (by decide)]
      rw [if_pos rfl, parseFieldsAux_skip,
        ih fuel r (by simp) (by simp at hfuel ⊢; omega)
          (fun x hx => hval x (by simp [hx]))]

theorem parseJson_eq (s : List Char) :
    parseJson s =
      match skipSpaces s with
      | [] => none
      | c :: rest =>
        if c = '{' then
          match skipSpaces rest with
          | [] => none
          | d :: r2 =>
            if d = '}' then
              if skipSpaces r2 = [] then some (Json.obj []) else none
            else
              match parseFieldsAux (rest.length + 1) rest with
              | none => none
              | some (fs, r) =>
                if skipSpaces r = [] then some (Json.obj fs) else none
        else none := rfl

theorem encFields_length_ge :
    ∀ fs : List (String × JVal), fs.length ≤ (encFields fs).length := by
  intro fs
  induction fs with
  | nil => simp [encFields]
  | cons f fs ih =>
    cases fs with
    | nil =>
      rw [encFields_single]
      simp [encField]
    | cons g gs =>
      rw [encFields_cons_cons]
      simp only [List.length_append, List.length_cons] at ih ⊢
      simp only [encField, List.length_cons, List.length_append]
      omega

/-- `json.loads(json.dumps(obj))` recovers the flat object when every value
is parse-invertible. -/
theorem parseJson_dumps (fs : List (String × JVal))
    (hval : ∀ f ∈ fs, parseValB f.2 = true) :
    parseJson (dumps (Json.obj fs)) = some (Json.obj fs) := by
  cases fs with
  | nil => decide
  | cons f fs =>
    obtain ⟨tl, htl⟩ : ∃ tl, encFields (f :: fs) = '"' :: tl := by
      cases fs with
      | nil => exact ⟨_, rfl⟩
      | cons g gs => exact ⟨_, rfl⟩
    have hrest : encFields (f :: fs) ++ ['}'] = '"' :: (tl ++ ['}']) := by
      rw [htl]
      rfl
    have hlen : (f :: fs).length ≤ ('"' :: (tl ++ ['}'])).length + 1 := by
      have h1 := encFields_length_ge (f :: fs)
      have h2 : ('"' :: (tl ++ ['}'])).length = (encFields (f :: fs)).length + 1 := by
        rw [← hrest]
        simp
      simp only [List.length_cons] at h1 h2 ⊢
      omega
    rw [show dumps (Json.obj (f :: fs)) = '{' :: (encFields (f :: fs) ++ ['}'])
      from rfl]
    rw [parseJson_eq]
    simp only [skipSpaces_cons_not_ws _ _ (by decide : isWS '{' = false)]
    rw [if_pos trivial, hrest]
    simp only [skipSpaces_cons_not_ws _ _ (by decide : isWS '"' = false)]
    rw [if_neg (by decide : ¬('"' : Char) = '}')]
    rw [show ('"' : Char) :: (tl ++ ['}']) = encFields (f :: fs) ++ '}' :: []
      from by rw [htl]; rfl]
    rw [parseFieldsAux_encFields (f :: fs) _ [] (by simp)
      (by rw [hrest]; exact hlen) hval]
    show (if skipSpaces [] = [] then some (Json.obj (f :: fs)) else none) =
      some (Json.obj (f :: fs))
    rw [if_pos (show skipSpaces ([] : List Char) = [] from rfl)]

/-! ## Integer and metadata token validity -/

theorem digitChar_isDigit (d : Nat) (hd : d < 10) :
    (digitChar d).isDigit = true := by
  interval_cases d <;> decide

theorem isNumChar_of_isDigit (c : Char) (h : c.isDigit = true) :
    isNumChar c = true := by
  simp [isNumChar, h]

theorem natDecAux_digits :
    ∀ (fuel n : Nat), ∀ c ∈ natDecAux fuel n, c.isDigit = true := by
  intro fuel
  induction fuel with
  | zero =>
    intro n c hc
    simp [natDecAux] at hc
  | succ fuel ih =>
    intro n c hc
    by_cases h0 : n = 0
    · rw [natDecAux, if_pos h0] at hc
      simp at hc
    · rw [natDecAux, if_neg h0] at hc
      rcases List.mem_append.mp hc with h | h
      · exact ih (n / 10) c h
      · rw [List.mem_singleton] at h
        subst h
        exact digitChar_isDigit _ (Nat.mod_lt _ (by norm_num))

theorem natDecChars_digits (n : Nat) :
    ∀ c ∈ natDecChars n, c.isDigit = true := by
  intro c hc
  by_cases h0 : n = 0
  · rw [natDecChars, if_pos h0] at hc
    rw [List.mem_singleton] at hc
    subst hc
    decide
  · rw [natDecChars, if_neg h0] at hc
    exact natDecAux_digits n n c hc

theorem natDecChars_ne_nil (n : Nat) : natDecChars n ≠ [] := by
  by_cases h0 : n = 0
  · rw [natDecChars, if_pos h0]
    simp
  · rw [natDecChars, if_neg h0]
    obtain ⟨fuel, rfl⟩ : ∃ k, n = k + 1 := ⟨n - 1, by omega⟩
    rw [natDecAux, if_neg h0]
    simp

/-- The decimal token of a Python int is a well-formed number token. -/
theorem intTok_numTokenOK (i : Int) : numTokenOK (intTok i) = true := by
  have hdata : (intTok i).data = intDecChars i := rfl
  simp only [numTokenOK, Bool.and_eq_true, hdata]
  by_cases hi : i < 0
  · rw [intDecChars, if_pos hi]
    refine ⟨⟨by simp, ?_⟩, by simp [numStartB]⟩
    rw [List.all_eq_true]
    intro c hc
    rcases List.mem_cons.mp hc with h | h
    · subst h
      decide
    · exact isNumChar_of_isDigit c (natDecChars_digits _ c h)
  · rw [intDecChars, if_neg hi]
    rcases hl : natDecChars i.natAbs with _ | ⟨c, cs⟩
    · exact absurd hl (natDecChars_ne_nil _)
    · have hdig : ∀ x ∈ natDecChars i.natAbs, x.isDigit = true :=
        natDecChars_digits _
      rw [hl] at hdig
      refine ⟨⟨by simp, ?_⟩, ?_⟩
      · rw [List.all_eq_true]
        intro x hx
        exact isNumChar_of_isDigit x (hdig x hx)
      · simp [numStartB, hdig c (by simp)]

/-- Every value of the serialized metadata object is parse-invertible. -/
theorem metaToJson_valid (m : Metadata) (hm : validMetaB m = true) :
    ∀ f ∈ (match metaToJson m with | Json.obj fs => fs), parseValB f.2 = true := by
  have hdur : numTokenOK m.audio_duration = true := by
    simp only [validMetaB, Bool.and_eq_true] at hm
    exact hm.2
  intro f hf
  simp only [metaToJson, List.mem_cons, List.not_mem_nil, or_false] at hf
  rcases hf with h | h | h | h | h | h | h <;> subst h <;>
    simp [parseValB, intTok_numTokenOK, hdur]

/-! ## Byte layer and container round trip -/

theorem bytesToChars_charsToBytes (s : List Char) :
    bytesToChars (charsToBytes s) = s := by
  simp only [bytesToChars, charsToBytes, List.map_map]
  rw [show List.map (Char.ofNat ∘ Char.toNat) s = List.map id s from
    List.map_congr_left (fun c _ => Char.ofNat_toNat c), List.map_id]

/-- `json.loads` inverts `json.dumps` through the byte layer for any valid
metadata record. -/
theorem parseJsonBytes_dumpsMeta (m : Metadata) (hm : validMetaB m = true) :
    parseJsonBytes (charsToBytes (dumpsMeta m)) = some (metaToJson m) := by
  rw [parseJsonBytes, bytesToChars_charsToBytes, dumpsMeta]
  rw [show metaToJson m = Json.obj (match metaToJson m with | Json.obj fs => fs)
    from rfl]
  exact parseJson_dumps _ (metaToJson_valid m hm)

theorem fromBytesLE_toBytesLE4 (n : Nat) (h : n < 4294967296) :
    fromBytesLE (toBytesLE4 n) = n := by
  simp [toBytesLE4, fromBytesLE]
  omega

/-- Loading a container whose metadata section parses returns the payload
and the parsed object, for both the file loader and the stream loader. -/
theorem load_container_of_parse (mbytes payload : List Nat) (j : Json)
    (hp : parseJsonBytes mbytes = some j) (hlen : mbytes.length < 4294967296) :
    load_with_metadata (toBytesLE4 mbytes.length ++ mbytes ++ payload) =
        some (payload, j) ∧
    load_compressed_from_stream (toBytesLE4 mbytes.length ++ mbytes ++ payload) =
        some (payload, j) := by
  have htake4 : (toBytesLE4 mbytes.length ++ mbytes ++ payload).take 4 =
      toBytesLE4 mbytes.length := rfl
  have hdrop4 : (toBytesLE4 mbytes.length ++ mbytes ++ payload).drop 4 =
      mbytes ++ payload := rfl
  have hfb : fromBytesLE (toBytesLE4 mbytes.length) = mbytes.length :=
    fromBytesLE_toBytesLE4 _ hlen
  have htakem : (mbytes ++ payload).take mbytes.length = mbytes :=
    List.take_left mbytes payload
  have hdropm : (mbytes ++ payload).drop mbytes.length = payload :=
    List.drop_left mbytes payload
  constructor
  · simp only [load_with_metadata, htake4, hfb, hdrop4, htakem, hdropm, hp]
  · simp only [load_compressed_from_stream, htake4, hfb, hdrop4, htakem, hdropm, hp]
    rw [if_neg (show ¬((toBytesLE4 mbytes.length).length ≠ 4) from by
      simp [toBytesLE4])]
    rw [if_neg (show ¬(mbytes.length ≠ mbytes.length) from by simp)]

/-! ## Container claims -/

/-- C2: container round trip — for every payload byte string and every
metadata record with the seven fields (ASCII-printable config name,
well-formed duration token, metadata JSON under the 4-byte length limit),
`load(save(packed, metadata))` returns exactly the same payload bytes and
the same metadata fields, for the file sink
(`AudioFile.save_with_metadata` / `AudioFile.load_with_metadata`) and the
stream sink (`AudioStream.save_compressed_to_stream` /
`AudioStream.load_compressed_from_stream`) alike. -/
theorem container_roundtrip (payload : List Nat) (m : Metadata)
    (hm : validMetaB m = true)
    (hlen : (charsToBytes (dumpsMeta m)).length < 4294967296) :
    (save_with_metadata payload m).bind load_with_metadata =
        some (payload, metaToJson m) ∧
    (save_compressed_to_stream payload m).bind load_compressed_from_stream =
        some (payload, metaToJson m) := by
  have hload := load_container_of_parse (charsToBytes (dumpsMeta m)) payload
    (metaToJson m) (parseJsonBytes_dumpsMeta m hm) hlen
  have hsave : save_with_metadata payload m =
      some (toBytesLE4 (charsToBytes (dumpsMeta m)).length ++
        charsToBytes (dumpsMeta m) ++ payload) := by
    simp only [save_with_metadata]
    rw [if_pos hlen]
  have hsave2 : save_compressed_to_stream payload m =
      some (toBytesLE4 (charsToBytes (dumpsMeta m)).length ++
        charsToBytes (dumpsMeta m) ++ payload) := hsave
  constructor
  · rw [hsave, Option.some_bind]
    exact hload.1
  · rw [hsave2, Option.some_bind]
    exact hload.2

set_option maxHeartbeats 2000000 in
set_option maxRecDepth 8192 in
/-- Witness for C2 at a concrete metadata record and payload. -/
theorem container_roundtrip_witness :
    ((save_with_metadata [1, 2, 3]
        ⟨13, 175, 1, 16000, 24000, "25hz", "7.0"⟩).bind load_with_metadata =
      some ([1, 2, 3], metaToJson ⟨13, 175, 1, 16000, 24000, "25hz", "7.0"⟩)) ∧
    ((save_compressed_to_stream [1, 2, 3]
        ⟨13, 175, 1, 16000, 24000, "25hz", "7.0"⟩).bind
          load_compressed_from_stream =
      some ([1, 2, 3], metaToJson ⟨13, 175, 1, 16000, 24000, "25hz", "7.0"⟩)) :=
  container_roundtrip [1, 2, 3] _ (by decide) (by decide)

/-- A byte sequence forming one complete well-formed container: a 4-byte
prefix, at least that many metadata bytes, and a metadata section that
parses as JSON. -/
def wellFormedContainer (src : List Nat) : Prop :=
  4 ≤ src.length ∧
  fromBytesLE (src.take 4) ≤ src.length - 4 ∧
  (parseJsonBytes ((src.drop 4).take (fromBytesLE (src.take 4)))).isSome = true

/-- C10: the file-based and stream-based codecs implement a single wire
format — save writes identical byte sequences through either API, and on
any byte sequence forming one well-formed container both loaders return
the same `(payload, metadata)` pair. -/
theorem file_stream_one_format :
    (∀ (payload : List Nat) (m : Metadata),
      save_with_metadata payload m = save_compressed_to_stream payload m) ∧
    (∀ src : List Nat, wellFormedContainer src →
      load_with_metadata src = load_compressed_from_stream src ∧
        (load_with_metadata src).isSome = true) := by
  constructor
  · intro payload m
    rfl
  · intro src hw
    obtain ⟨h4, hsz, hparse⟩ := hw
    obtain ⟨j, hj⟩ := Option.isSome_iff_exists.mp hparse
    constructor
    · simp only [load_with_metadata, load_compressed_from_stream, hj]
      rw [if_neg (show ¬((src.take 4).length ≠ 4) from by
        rw [List.length_take]
        omega)]
      rw [if_neg (show ¬(((src.drop 4).take (fromBytesLE (src.take 4))).length ≠
          fromBytesLE (src.take 4)) from by
        rw [List.length_take, List.length_drop]
        omega)]
    · simp only [load_with_metadata, hj, Option.isSome_some]

/-- Witness for C10 on a concrete well-formed container. -/
theorem file_stream_one_format_witness :
    load_with_metadata [2, 0, 0, 0, 123, 125, 9] =
        load_compressed_from_stream [2, 0, 0, 0, 123, 125, 9] ∧
      (load_with_metadata [2, 0, 0, 0, 123, 125, 9]).isSome = true :=
  file_stream_one_format.2 [2, 0, 0, 0, 123, 125, 9]
    ⟨by decide, by decide, by decide⟩

/-- C7 (amended): on a source shorter than 4 bytes both loaders fail (the
file loader because the metadata section is then empty and `json.loads`
rejects it); on a source whose 4-byte prefix declares more metadata bytes
than remain, the stream loader fails its explicit length check, while the
file loader parses whatever bytes are available and fails exactly when they
do not parse as JSON. -/
theorem load_length_prefix_boundary :
    (∀ src : List Nat, src.length < 4 →
      load_with_metadata src = none ∧ load_compressed_from_stream src = none) ∧
    (∀ src : List Nat, 4 ≤ src.length →
      src.length - 4 < fromBytesLE (src.take 4) →
      load_compressed_from_stream src = none) ∧
    (∀ src : List Nat,
      load_with_metadata src = none ↔
        parseJsonBytes ((src.drop 4).take (fromBytesLE (src.take 4))) = none) := by
  refine ⟨?_, ?_, ?_⟩
  · intro src hlt
    have hdrop : src.drop 4 = [] := List.drop_eq_nil_of_le (by omega)
    constructor
    · simp only [load_with_metadata, hdrop, List.take_nil]
      rw [show parseJsonBytes [] = none from rfl]
    · simp only [load_compressed_from_stream]
      rw [if_pos (show (src.take 4).length ≠ 4 from by
        rw [List.length_take]
        omega)]
  · intro src h4 hlt
    simp only [load_compressed_from_stream]
    rw [if_neg (show ¬((src.take 4).length ≠ 4) from by
      rw [List.length_take]
      omega)]
    rw [if_pos (show ((src.drop 4).take (fromBytesLE (src.take 4))).length ≠
        fromBytesLE (src.take 4) from by
      rw [List.length_take, List.length_drop]
      omega)]
  · intro src
    cases hp : parseJsonBytes ((src.drop 4).take (fromBytesLE (src.take 4))) with
    | none => simp [load_with_metadata, hp]
    | some j => simp [load_with_metadata, hp]

/-- Witness for C7 at a 1-byte source and a truncated 5-byte source. -/
theorem load_length_prefix_boundary_witness :
    (load_with_metadata [5] = none ∧ load_compressed_from_stream [5] = none) ∧
    load_compressed_from_stream [9, 0, 0, 0, 1] = none :=
  ⟨load_length_prefix_boundary.1 [5] (by decide),
   load_length_prefix_boundary.2.1 [9, 0, 0, 0, 1] (by decide) (by decide)⟩

/-- C7 counterexample: a source whose 4-byte prefix declares 10 metadata
bytes but which holds only the two bytes `"{}"` — the file loader returns
`(b"", {})` instead of raising. -/
theorem load_with_metadata_truncated_accepts :
    load_with_metadata [10, 0, 0, 0, 123, 125] = some ([], Json.obj []) := by
  decide

/-- C8 (amended): the loaders perform no key or type validation — a
container whose metadata section parses as JSON is returned as-is, however
many of the seven required keys are missing. -/
theorem load_returns_unvalidated_metadata (mbytes payload : List Nat)
    (j : Json) (hp : parseJsonBytes mbytes = some j)
    (hlen : mbytes.length < 4294967296) :
    load_with_metadata (toBytesLE4 mbytes.length ++ mbytes ++ payload) =
        some (payload, j) ∧
    load_compressed_from_stream (toBytesLE4 mbytes.length ++ mbytes ++ payload) =
        some (payload, j) :=
  load_container_of_parse mbytes payload j hp hlen

/-- Witness for C8 at the metadata section `{}`. -/
theorem load_returns_unvalidated_metadata_witness :
    load_with_metadata
        (toBytesLE4 ([123, 125] : List Nat).length ++ [123, 125] ++ [7]) =
        some ([7], Json.obj []) ∧
    load_compressed_from_stream
        (toBytesLE4 ([123, 125] : List Nat).length ++ [123, 125] ++ [7]) =
        some ([7], Json.obj []) :=
  load_returns_unvalidated_metadata [123, 125] [7] (Json.obj [])
    (by decide) (by decide)

/-- C8 counterexample: the metadata section `{}` parses as JSON but is
missing all seven required keys, yet load succeeds with the partial (empty)
record instead of raising a `FormatError`. -/
theorem load_with_metadata_missing_keys_accepts :
    load_with_metadata [2, 0, 0, 0, 123, 125, 7] = some ([7], Json.obj []) := by
  decide

end MeshtasticVox
